import Mathlib

/-!
Shallow embedding of the board-simulation engine of the Tetris-like game in
`src/script.js`, together with theorems settling the frozen claims about it.

Conventions of the embedding:

* A board is a list of columns (outer index = x), each column a list of cells
  (inner index = y, index 0 = top, last index = bottom).  A cell holds a `Nat`;
  `0` is empty, any nonzero value is occupied (JS truthiness of numbers).
* JS operations that can throw a `TypeError` (indexing a missing column and
  then calling a method on `undefined`) are modelled with `Option`: `none`
  is the thrown exception.
* The mutable `lastIndexes` object of `dropFloatingTiles` is modelled
  faithfully, including the JS arithmetic on `undefined` (`undefined - 1`
  is `NaN`, and `NaN` is falsy), by the type `JVal` below.
-/

namespace Tetris

/-- A board: list of columns; each column a list of cells, index 0 = top.
Cell value `0` is empty, any other value is occupied. -/
abbrev Board := List (List Nat)

/-- JS `cells.lastIndexOf(0)`: the highest index whose cell is `0`, or `-1`
if the column has no empty cell. -/
def lastIndexOfZero : List Nat → Int
  | [] => -1
  | c :: cs =>
    let r := lastIndexOfZero cs
    if 0 ≤ r then r + 1 else if c = 0 then 0 else -1

/-- `iterColumn` from `iterBoard` in `src/script.js`: one gravity step for a
single column.  If the column has no empty cell it is returned unchanged
(JS returns a fresh copy, equal as a value); otherwise the empty cell at the
last index holding `0` is removed and a new empty cell is put on top. -/
def iterColumn (cells : List Nat) : List Nat :=
  let l := lastIndexOfZero cells
  if l < 0 then cells else 0 :: cells.eraseIdx l.toNat

/-- `isGameOver` from `src/script.js`: some column has no empty cell. -/
def isGameOver (b : Board) : Bool :=
  b.any (fun cells => decide (lastIndexOfZero cells < 0))

/-- The floating piece: a tile group (list of `(x, y)` offsets) plus the
board offset of its local origin. -/
structure FloatT where
  value : List (Int × Int)
  x : Int
  y : Int
deriving DecidableEq, Repr

/-- The values that can be stored in the `lastIndexes` object of
`dropFloatingTiles`: `undefined` (a key never written), `NaN` (the result of
`undefined - 1` or `NaN - 1`), or an actual number. -/
inductive JVal
  | undef
  | nan
  | num (v : Int)
deriving DecidableEq, Repr

/-- JS `lastIndexes[x] -= 1`: `undefined - 1` and `NaN - 1` are `NaN`. -/
def jsDec : JVal → JVal
  | .num v => .num (v - 1)
  | _ => .nan

/-- JS `cells[i] = 1` on an array of length `cells.length` where
`i ≤ cells.length - 1` may hold (here `i` is always a `lastIndexOf` result, so
`i < cells.length`): an in-range index is overwritten; a negative index (`-1`)
only creates a non-index property, leaving every array slot unchanged. -/
def setCell (cells : List Nat) (i : Int) : List Nat :=
  if 0 ≤ i ∧ i.toNat < cells.length then cells.set i.toNat 1 else cells

/-- The body of the `forEach` in `dropFloatingTiles`, one float cell at a
time.  The state is the board under mutation plus the `lastIndexes` map
keyed by the cell's local `x` (as in the source).  `none` models the
`TypeError` thrown when the target column is out of range (`cells` is
`undefined`).  `lastIndexes[x] || cells.lastIndexOf(0)` takes the stored
number only when it is truthy (a number other than `0`; `undefined` and
`NaN` are falsy). -/
def dropStep (fx : Int) (st : Option (Board × (Int → JVal))) (cell : Int × Int) :
    Option (Board × (Int → JVal)) :=
  match st with
  | none => none
  | some (nb, li) =>
    let ci : Int := cell.1 + fx
    if 0 ≤ ci ∧ ci.toNat < nb.length then
      let cells := nb.getD ci.toNat []
      let dropIndex : Int :=
        match li cell.1 with
        | .num v => if v ≠ 0 then v else lastIndexOfZero cells
        | _ => lastIndexOfZero cells
      some (nb.set ci.toNat (setCell cells dropIndex),
            Function.update li cell.1 (jsDec (li cell.1)))
    else none

/-- `dropFloatingTiles` from `src/script.js`.  A `null` float leaves the
board unchanged (the JS clone is equal as a value). -/
def dropFloatingTiles (b : Board) (f? : Option FloatT) : Option Board :=
  match f? with
  | none => some b
  | some f => (f.value.foldl (dropStep f.x) (some (b, fun _ => JVal.undef))).map Prod.fst

/-- The collision test inside `iterBoard`: JS
`nextFloat.value.some(([x, y]) => { const column = board[x + nextFloat.x];
const nextY = y + nextFloat.y; return column[nextY] || nextY == column.length })`.
`some` short-circuits, so cells after the first hit are not evaluated;
an out-of-range column read before a hit throws (`none`).  `column[nextY]`
is `undefined` (falsy) when `nextY` is negative or at least the column
length. -/
def shouldDropAux (b : Board) (fx fy : Int) : List (Int × Int) → Option Bool
  | [] => some false
  | (x, y) :: rest =>
    let ci : Int := x + fx
    if 0 ≤ ci ∧ ci.toNat < b.length then
      let column := b.getD ci.toNat []
      let nextY : Int := y + fy
      if (0 ≤ nextY ∧ nextY.toNat < column.length ∧ column.getD nextY.toNat 0 ≠ 0)
          ∨ nextY = (column.length : Int) then
        some true
      else shouldDropAux b fx fy rest
    else none

/-- `iterBoard` from `src/script.js`: compact every column one gravity step,
advance the float one row, and settle the float (merging it into the
compacted board) when its advanced position collides with the pre-compaction
board or the bottom boundary. -/
def iterBoard (b : Board) (f? : Option FloatT) : Option (Board × Option FloatT) :=
  let nextBoard := b.map iterColumn
  match f? with
  | none => some (nextBoard, none)
  | some f =>
    match shouldDropAux b f.x (f.y + 1) f.value with
    | none => none
    | some true => (dropFloatingTiles nextBoard (some f)).map (fun nb => (nb, none))
    | some false => some (nextBoard, some { f with y := f.y + 1 })

/-- JS `Number(cellValue != boardB[x][y])` for an *existing* column of
`boardB`: a row missing in that column reads as `undefined` (`none`), and a
number is always `!=` `undefined`, so it counts as a difference. -/
def diffCell (v : Nat) (o : Option Nat) : Nat :=
  match o with
  | none => 1
  | some w => if v = w then 0 else 1

/-- One column of `boardDiff`: the cells of one column of the first board,
compared pointwise against column `colB` of the second board, starting at
row `y`. -/
def diffColumn (colB : List Nat) : Nat → List Nat → List Nat
  | _, [] => []
  | y, v :: vs => diffCell v (colB.get? y) :: diffColumn colB (y + 1) vs

/-- The columns of `boardDiff`, starting at column index `x`.  Each result
column is the diff of the corresponding column of `boardA` padded with the
untouched zero tail of the fresh `newBoard(boardA.length, boardA[0].length)`
grid the JS writes into.  When `boardB` has no column `x` while column `x`
of `boardA` still has a cell to compare, the JS `boardB[x][y]` reads a
property of `undefined` and throws a `TypeError` (`none`); an empty
`boardA` column performs no read, leaving the fresh all-zero column. -/
def boardDiffCols (b2 : Board) (h0 : Nat) : Nat → List (List Nat) → Option Board
  | _, [] => some []
  | x, colA :: rest =>
    match colA, b2.get? x with
    | [], _ =>
      (boardDiffCols b2 h0 (x + 1) rest).map (fun cols => List.replicate h0 0 :: cols)
    | _ :: _, none => none
    | v :: vs, some colB =>
      (boardDiffCols b2 h0 (x + 1) rest).map
        (fun cols =>
          (diffColumn colB 0 (v :: vs) ++ (List.replicate h0 0).drop (v :: vs).length)
            :: cols)

/-- `boardDiff` from `src/script.js`.  On an empty first board the JS
`boardA[0].length` throws (`none`); a missing column of the second board
throws at its first cell comparison (see `boardDiffCols`). -/
def boardDiff (a b2 : Board) : Option Board :=
  match a with
  | [] => none
  | _ :: _ => boardDiffCols b2 (a.headD []).length 0 a

/-- `removeLastCell` inside `removeBottomRow`: JS
`[...new Array(count).fill(0), ...cells.slice(0, -count)]`; note that for
`count = 0` the slice is `slice(0, -0) = slice(0, 0) = []`. -/
def removeLastCell (count : Nat) (cells : List Nat) : List Nat :=
  List.replicate count 0 ++ (if count = 0 then [] else cells.take (cells.length - count))

/-- `removeBottomRow` from `src/script.js`. -/
def removeBottomRow (b : Board) (count : Nat) : Board :=
  b.map (removeLastCell count)

/-- One row test of `getBottomContiguous`: JS `!board[j][y]` fails the row
when the cell is `0` or missing (`undefined`). -/
def fullRow (b : Board) (y : Nat) : Bool :=
  b.all (fun col => !(col.getD y 0 == 0))

/-- The scanning loop of `getBottomContiguous`, from row `y` upward with `n`
rows still to examine. -/
def gbcAux (b : Board) : Nat → Nat → Nat
  | _, 0 => 0
  | y, n + 1 => if fullRow b y then gbcAux b (y - 1) n + 1 else 0

/-- `getBottomContiguous` from `src/script.js`: the number of consecutive
fully-occupied rows counted from the bottom row upward. -/
def getBottomContiguous (b : Board) : Nat :=
  let height := (b.headD []).length
  gbcAux b (height - 1) height

/-- JS `Math.max(...xs)` for a nonempty list (the empty case, `-Infinity`,
has no `Int` counterpart and never occurs for the game's groups). -/
def maxList : List Int → Int
  | [] => 0
  | x :: xs => xs.foldl max x

/-- JS `Math.min(...xs)` for a nonempty list. -/
def minList : List Int → Int
  | [] => 0
  | x :: xs => xs.foldl min x

/-- `getTileGroupWidth` from `src/script.js`: bounding-box span on x. -/
def getTileGroupWidth (value : List (Int × Int)) : Int :=
  maxList (value.map Prod.fst) - minList (value.map Prod.fst)

/-- `getTileGroupHeight` from `src/script.js`: bounding-box span on y. -/
def getTileGroupHeight (value : List (Int × Int)) : Int :=
  maxList (value.map Prod.snd) - minList (value.map Prod.snd)

/-- `normaliseTileGroup` from `src/script.js`: translate so the minimum x
and minimum y become 0. -/
def normaliseTileGroup (g : List (Int × Int)) : List (Int × Int) :=
  let minX := minList (g.map Prod.fst)
  let minY := minList (g.map Prod.snd)
  g.map (fun t => (t.1 - minX, t.2 - minY))

/-- `rotateTileGroup` from `src/script.js`: rotate by `(x, y) ↦ (-y, x)` and
re-normalise. -/
def rotateTileGroup (g : List (Int × Int)) : List (Int × Int) :=
  normaliseTileGroup (g.map (fun t => (-t.2, t.1)))

/-- The four user actions. -/
inductive Action
  | left
  | right
  | down
  | rotate
deriving DecidableEq, Repr

/-- The body of the `forEach` over the spliced action queue in
`applyActions`.  `fw` is the float width computed once before the loop.
A `null` float makes every remaining action a no-op; the `down` action can
throw inside `dropFloatingTiles` (`none`). -/
def applyOne (bw bh : Nat) (fw : Int) (st : Board × Option FloatT) (a : Action) :
    Option (Board × Option FloatT) :=
  match st.2 with
  | none => some st
  | some f =>
    match a with
    | .left => some (st.1, some { f with x := max (f.x - 1) 0 })
    | .right => some (st.1, some { f with x := min (f.x + 1) ((bw : Int) - fw - 1) })
    | .down => (dropFloatingTiles st.1 (some f)).map (fun nb => (nb, none))
    | .rotate =>
      let v2 := rotateTileGroup f.value
      some (st.1, some { value := v2,
                         x := min f.x ((bw : Int) - getTileGroupWidth v2 - 1),
                         y := min f.y ((bh : Int) - getTileGroupHeight v2 - 1) })

/-- The action loop of `applyActions`. -/
def applyActionsAux (bw bh : Nat) (fw : Int) :
    Board × Option FloatT → List Action → Option (Board × Option FloatT)
  | st, [] => some st
  | st, a :: rest =>
    match applyOne bw bh fw st a with
    | none => none
    | some st2 => applyActionsAux bw bh fw st2 rest

/-- `applyActions` from `src/script.js`.  The result carries the board, the
float and the state of the pending action queue after the call: the queue is
spliced empty only when a non-null float is processed; the game-over early
return and the null-float path leave it untouched.  On an empty board the JS
`board[0].length` throws (`none`). -/
def applyActions (b : Board) (f? : Option FloatT) (queue : List Action) :
    Option (Board × Option FloatT × List Action) :=
  if isGameOver b then some (b, f?, queue)
  else if b.length = 0 then none
  else
    match f? with
    | none => some (b, none, queue)
    | some f =>
      match applyActionsAux b.length ((b.headD []).length) (getTileGroupWidth f.value)
          (b, some f) queue with
      | none => none
      | some st => some (st.1, st.2, [])

/-- `newFloat` from `src/script.js`, with the randomly generated group (the
only non-determinism) passed in as a parameter.  `Math.floor` of the halved
difference is floor division. -/
def newFloat (bw : Nat) (value : List (Int × Int)) : FloatT :=
  { value := value,
    x := Int.fdiv ((bw : Int) - getTileGroupWidth value) 2,
    y := 0 }

/-- The `step` closure from `src/script.js` as a state transition on
`(board, float, queue)`.  `group` stands for the group `randomGroup` would
produce when a new float is needed; `userActionsOnly` distinguishes an
action-only tick from a full simulation step.  Rendering and delays have no
effect on this state and are omitted; the row-clear loop runs
`removeBottomRow` `score` times with `score` computed once, as in the
source. -/
def stepSim (b : Board) (f? : Option FloatT) (queue : List Action)
    (group : List (Int × Int)) (userActionsOnly : Bool) :
    Option (Board × Option FloatT × List Action) :=
  if isGameOver b then some (b, f?, queue)
  else
    let f1 : Option FloatT :=
      some (match f? with
            | none => newFloat b.length group
            | some f => f)
    match applyActions b f1 queue with
    | none => none
    | some (b1, f2, q1) =>
      if userActionsOnly then some (b1, f2, q1)
      else
        let score := getBottomContiguous b1
        let b2 := Nat.iterate (fun bb => removeBottomRow bb 1) score b1
        match iterBoard b2 f2 with
        | none => none
        | some (b3, f3) => some (b3, f3, q1)

/-! ### Specification-side definitions (for refinement statements) -/

/-- Number of empty cells of one column. -/
def countZeros (c : List Nat) : Nat := c.countP (fun x => x == 0)

/-- Number of occupied cells of one column. -/
def occCells (c : List Nat) : Nat := c.countP (fun x => !(x == 0))

/-- Number of occupied cells of a whole board. -/
def occCount (b : Board) : Nat := (b.map occCells).sum

/-- The fully settled form of a column: all its empty cells on top (low
indices), its occupied cells at the bottom in their original order. -/
def settledOf (c : List Nat) : List Nat :=
  List.replicate (countZeros c) 0 ++ c.filter (fun x => !(x == 0))

/-- Number of (occupied, empty) inversions: pairs of an occupied cell
strictly above an empty cell.  Zero exactly on settled columns. -/
def invMeasure : List Nat → Nat
  | [] => 0
  | x :: xs => (if x = 0 then 0 else countZeros xs) + invMeasure xs

/-- How many cells of a float's group target board column `c`. -/
def tcount (value : List (Int × Int)) (fx : Int) (c : Nat) : Nat :=
  (value.filter (fun cell => cell.1 + fx = (c : Int))).length

/-- Fill the `k` bottom-most empty cells of a column with `1`, bottom-most
first (the intended drop placement of the spec: consecutive empty slots from
the bottom-most empty one upward). -/
def fillBottomZeros (col : List Nat) : Nat → List Nat
  | 0 => col
  | k + 1 =>
    let l := lastIndexOfZero col
    fillBottomZeros (if l < 0 then col else col.set l.toNat 1) k

/-- The intended result of dropping a float: independently per column, fill
as many bottom-most empty cells as the float has cells targeting that
column. -/
def intendedDropB (b : Board) (fx : Int) (value : List (Int × Int)) : Board :=
  (List.range b.length).map (fun c => fillBottomZeros (b.getD c []) (tcount value fx c))

/-- A `w × h` board: `w` columns of `h` cells each. -/
def Rect (b : Board) (w h : Nat) : Prop :=
  b.length = w ∧ ∀ col ∈ b, col.length = h

instance (b : Board) (w h : Nat) : Decidable (Rect b w h) := by
  unfold Rect; infer_instance

/-! ### Helper lemmas about `lastIndexOfZero` and `iterColumn` -/

theorem lastIndexOfZero_neg_iff (c : List Nat) : lastIndexOfZero c < 0 ↔ 0 ∉ c := by
  induction c with
  | nil => simp [lastIndexOfZero]
  | cons x xs ih =>
    simp only [lastIndexOfZero, List.mem_cons]
    by_cases h : 0 ≤ lastIndexOfZero xs
    · have hx : 0 ∈ xs := by
        by_contra hc
        exact absurd (ih.mpr hc) (by omega)
      simp only [if_pos h]
      constructor
      · intro hlt; omega
      · intro hno; exact absurd (Or.inr hx) hno
    · have hx : 0 ∉ xs := ih.mp (by omega)
      simp only [if_neg h]
      by_cases hx0 : x = 0
      · simp [hx0]
      · simp only [if_neg hx0]
        constructor
        · intro _ hmem
          rcases hmem with h0 | h0
          · exact hx0 h0.symm
          · exact hx h0
        · intro _; omega

theorem lastIndexOfZero_toNat_lt (c : List Nat) (h : 0 ≤ lastIndexOfZero c) :
    (lastIndexOfZero c).toNat < c.length := by
  induction c with
  | nil => simp [lastIndexOfZero] at h
  | cons x xs ih =>
    simp only [lastIndexOfZero] at h ⊢
    by_cases h2 : 0 ≤ lastIndexOfZero xs
    · have := ih h2
      simp only [if_pos h2]
      simp only [List.length_cons]
      omega
    · simp only [if_neg h2] at h ⊢
      by_cases hx0 : x = 0
      · simp [hx0]
      · simp only [if_neg hx0] at h
        omega

theorem exists_last_zero_decomp (c : List Nat) (h : 0 ∈ c) :
    ∃ a b, c = a ++ 0 :: b ∧ 0 ∉ b := by
  induction c with
  | nil => cases h
  | cons x xs ih =>
    by_cases hx : 0 ∈ xs
    · obtain ⟨a, b, rfl, hb⟩ := ih hx
      exact ⟨x :: a, b, rfl, hb⟩
    · have hx0 : x = 0 := by
        rcases List.mem_cons.mp h with h0 | h0
        · exact h0.symm
        · exact absurd h0 hx
      exact ⟨[], xs, by simp [hx0], hx⟩

theorem lastIndexOfZero_append (a b : List Nat) (hb : 0 ∉ b) :
    lastIndexOfZero (a ++ 0 :: b) = (a.length : Int) := by
  induction a with
  | nil =>
    have hlt : lastIndexOfZero b < 0 := (lastIndexOfZero_neg_iff b).mpr hb
    simp only [List.nil_append, lastIndexOfZero]
    rw [if_neg (by omega)]
    simp
  | cons x a ih =>
    simp only [List.cons_append, lastIndexOfZero, List.append_eq]
    rw [ih]
    rw [if_pos (by omega)]
    simp only [List.length_cons]
    push_cast
    ring

theorem eraseIdx_append_cons (a b : List Nat) (x : Nat) :
    (a ++ x :: b).eraseIdx a.length = a ++ b := by
  induction a with
  | nil => rfl
  | cons y a ih =>
    simp only [List.cons_append, List.length_cons, List.eraseIdx, List.append_eq, ih]

theorem iterColumn_no_zero (c : List Nat) (h : 0 ∉ c) : iterColumn c = c := by
  unfold iterColumn
  rw [if_pos ((lastIndexOfZero_neg_iff c).mpr h)]

theorem iterColumn_decomp (a b : List Nat) (hb : 0 ∉ b) :
    iterColumn (a ++ 0 :: b) = 0 :: (a ++ b) := by
  unfold iterColumn
  rw [lastIndexOfZero_append a b hb, if_neg (by omega)]
  have ht : ((a.length : Int)).toNat = a.length := by omega
  rw [ht, eraseIdx_append_cons]

/-- C3.  The single-column compaction step returns the column unchanged when
it has no empty cell; otherwise the index returned by `lastIndexOfZero` is
the last position holding `0`, that cell is removed, a `0` is inserted at the
top, cells above the removed gap shift down by one position and cells below
it keep their positions, with the length preserved. -/
theorem claim3_iterColumn_step (cells : List Nat) :
    (0 ∉ cells → iterColumn cells = cells) ∧
    (0 ∈ cells →
      cells.getD (lastIndexOfZero cells).toNat 1 = 0 ∧
      (∀ j, (lastIndexOfZero cells).toNat < j → j < cells.length → cells.getD j 0 ≠ 0) ∧
      (iterColumn cells).length = cells.length ∧
      (iterColumn cells).getD 0 1 = 0 ∧
      (∀ i, i < (lastIndexOfZero cells).toNat →
        (iterColumn cells).getD (i + 1) 0 = cells.getD i 0) ∧
      (∀ i, (lastIndexOfZero cells).toNat < i → i < cells.length →
        (iterColumn cells).getD i 0 = cells.getD i 0)) := by
  constructor
  · exact iterColumn_no_zero cells
  · intro hmem
    obtain ⟨a, b, rfl, hb⟩ := exists_last_zero_decomp _ hmem
    have hL : lastIndexOfZero (a ++ 0 :: b) = (a.length : Int) :=
      lastIndexOfZero_append a b hb
    have hLt : (lastIndexOfZero (a ++ 0 :: b)).toNat = a.length := by
      rw [hL]; omega
    have hIter : iterColumn (a ++ 0 :: b) = 0 :: (a ++ b) := iterColumn_decomp a b hb
    rw [hLt, hIter]
    refine ⟨?_, ?_, ?_, ?_, ?_, ?_⟩
    · rw [List.getD_append_right _ _ _ _ (le_refl _), Nat.sub_self]
      rfl
    · intro j hj hjlen
      obtain ⟨k, rfl⟩ : ∃ k, j = a.length + 1 + k := ⟨j - a.length - 1, by omega⟩
      rw [show a.length + 1 + k = a.length + (1 + k) by ring,
        List.getD_append_right _ _ _ _ (by omega)]
      have hkb : k < b.length := by
        simp only [List.length_append, List.length_cons] at hjlen
        omega
      rw [Nat.add_sub_cancel_left]
      show (0 :: b).getD (1 + k) 0 ≠ 0
      rw [show 1 + k = k + 1 by ring, List.getD_cons_succ]
      rw [List.getD_eq_getElem _ _ hkb]
      intro hzero
      exact hb (hzero ▸ List.getElem_mem hkb)
    · simp only [List.length_cons, List.length_append]
      omega
    · rfl
    · intro i hi
      rw [List.getD_cons_succ, List.getD_append _ _ _ _ hi, List.getD_append _ _ _ _ hi]
    · intro i hi hilen
      obtain ⟨k, rfl⟩ : ∃ k, i = a.length + 1 + k := ⟨i - a.length - 1, by omega⟩
      have hkb : k < b.length := by
        simp only [List.length_append, List.length_cons] at hilen
        omega
      rw [show a.length + 1 + k = (a.length + k) + 1 by ring, List.getD_cons_succ,
        List.getD_append_right _ _ _ _ (by omega : a.length ≤ a.length + k),
        Nat.add_sub_cancel_left,
        show (a.length + k) + 1 = a.length + (1 + k) by ring,
        List.getD_append_right _ _ _ _ (by omega : a.length ≤ a.length + (1 + k)),
        Nat.add_sub_cancel_left, show 1 + k = k + 1 by ring, List.getD_cons_succ]

/-- Witness for C3 at concrete columns: a column with no empty cell is
unchanged, and compacting `[1, 0, 1]` puts an empty cell on top. -/
theorem claim3_witness :
    iterColumn [1, 2] = [1, 2] ∧ (iterColumn [1, 0, 1]).getD 0 1 = 0 :=
  ⟨(claim3_iterColumn_step [1, 2]).1 (by decide),
   ((claim3_iterColumn_step [1, 0, 1]).2 (by decide)).2.2.2.1⟩

/-! ### Action application: claims C5, C7, C8 -/

/-- C5.  On a non-game-over board with a non-null float (with a nonempty
group, as every group of the game is), processing a move-left action sets
the float's x to `max (x - 1) 0` — in particular move-left at `x = 0` leaves
`x = 0` — and processing a move-right action sets it to
`min (x + 1) (boardWidth - floatWidth - 1)`, where `floatWidth` is the
group's bounding-box span, reproducing the extra reserved right-edge
column. -/
theorem claim5_move_clamp (b : Board) (f : FloatT)
    (h1 : isGameOver b = false) (h2 : b ≠ []) (h3 : f.value ≠ []) :
    applyActions b (some f) [Action.left]
      = some (b, some { f with x := max (f.x - 1) 0 }, []) ∧
    applyActions b (some f) [Action.right]
      = some (b, some { f with
          x := min (f.x + 1) ((b.length : Int) - getTileGroupWidth f.value - 1) }, []) ∧
    (f.x = 0 → applyActions b (some f) [Action.left] = some (b, some f, [])) := by
  have hlen : ¬(b.length = 0) := by simpa using h2
  refine ⟨?_, ?_, ?_⟩
  · simp [applyActions, applyActionsAux, applyOne, h1, hlen]
  · simp [applyActions, applyActionsAux, applyOne, h1, hlen]
  · intro hx0
    have hf : { f with x := max (f.x - 1) 0 } = f := by
      cases f
      simp only [FloatT.mk.injEq]
      simp only at hx0
      rw [hx0]
      simp
    simp [applyActions, applyActionsAux, applyOne, h1, hlen, hf]

/-- Witness for C5 at a concrete board and float: move-left at x = 0 stays
at 0 and move-right on a 2-wide board moves the one-cell float to x = 1. -/
theorem claim5_witness :
    applyActions [[0, 0], [0, 0]] (some ⟨[(0, 0)], 0, 0⟩) [Action.left]
      = some ([[0, 0], [0, 0]], some ⟨[(0, 0)], max (0 - 1) 0, 0⟩, []) ∧
    applyActions [[0, 0], [0, 0]] (some ⟨[(0, 0)], 0, 0⟩) [Action.right]
      = some ([[0, 0], [0, 0]],
          some ⟨[(0, 0)], min (0 + 1) ((2 : Int) - getTileGroupWidth [(0, 0)] - 1), 0⟩, []) :=
  ⟨(claim5_move_clamp [[0, 0], [0, 0]] ⟨[(0, 0)], 0, 0⟩ (by decide) (by decide) (by decide)).1,
   (claim5_move_clamp [[0, 0], [0, 0]] ⟨[(0, 0)], 0, 0⟩ (by decide) (by decide) (by decide)).2.1⟩

/-- Counterexample to C7 as stated: on a non-game-over board with a null
float, `applyActions` returns the pending queue untouched — the
`userActions.splice(0)` sits inside `if (float)` and is never reached, so
the queue is not drained. -/
theorem claim7_cex :
    applyActions [[0]] none [Action.left] = some ([[0]], none, [Action.left]) ∧
    ([Action.left] : List Action) ≠ [] := by
  constructor
  · rfl
  · decide

/-- C7 as amended: when the float is null the action-application phase
leaves the pending action queue intact (it is not drained) and the queued
actions have no effect on the board or float. -/
theorem claim7_null_float (b : Board) (q : List Action)
    (h1 : isGameOver b = false) (h2 : b ≠ []) :
    applyActions b none q = some (b, none, q) := by
  have hlen : ¬(b.length = 0) := by simpa using h2
  simp [applyActions, h1, hlen]

/-- Witness for the amended C7 at a concrete board and queue. -/
theorem claim7_witness :
    applyActions [[0]] none [Action.rotate] = some ([[0]], none, [Action.rotate]) :=
  claim7_null_float [[0]] [Action.rotate] (by decide) (by decide)

/-- C8.  The game-over state is absorbing: when some column has no empty
cell, both the action-application phase and a full tick (action-only or
simulation step alike) return the board, the float and the queue completely
unchanged. -/
theorem claim8_game_over_absorbing (b : Board) (f? : Option FloatT) (q : List Action)
    (g : List (Int × Int)) (uo : Bool) (h : isGameOver b = true) :
    applyActions b f? q = some (b, f?, q) ∧
    stepSim b f? q g uo = some (b, f?, q) := by
  constructor
  · simp [applyActions, h]
  · simp [stepSim, h]

/-- Witness for C8 at a fully occupied concrete board. -/
theorem claim8_witness :
    applyActions [[1]] none [Action.left] = some ([[1]], none, [Action.left]) ∧
    stepSim [[1]] none [Action.left] [(0, 0)] false = some ([[1]], none, [Action.left]) :=
  claim8_game_over_absorbing [[1]] none [Action.left] [(0, 0)] false (by decide)

/-! ### Claims C9 and C10: silent loss on full columns, dimension safety -/

theorem lastIndexOfZero_ge_neg_one (c : List Nat) : -1 ≤ lastIndexOfZero c := by
  induction c with
  | nil => simp [lastIndexOfZero]
  | cons x xs ih =>
    simp only [lastIndexOfZero]
    by_cases h : 0 ≤ lastIndexOfZero xs
    · rw [if_pos h]; omega
    · rw [if_neg h]
      by_cases hx : x = 0 <;> simp [hx]

theorem getD_mem_of_lt {α : Type} (l : List α) (i : Nat) (d : α) (h : i < l.length) :
    l.getD i d ∈ l := by
  rw [List.getD_eq_getElem _ _ h]
  exact List.getElem_mem h

theorem set_getD_self {α : Type} (l : List α) (i : Nat) (d : α) (h : i < l.length) :
    l.set i (l.getD i d) = l := by
  apply List.ext_getElem
  · simp
  · intro n h1 h2
    rw [List.getElem_set]
    split
    · next heq =>
      subst heq
      exact List.getD_eq_getElem _ _ h
    · rfl

/-- C9.  When a float cell's target column has no empty cell, the
`lastIndexOf(0)` lookup yields `-1`, the write targets index `-1`
(an invisible non-index property in JS), and the processing of that cell
leaves every column of the board unchanged: the cell is silently lost, with
no out-of-bounds error and no occupied cell overwritten.  The hypothesis on
`lastIndexes` holds throughout `dropFloatingTiles`, whose per-column entries
only ever go from `undefined` to `NaN`. -/
theorem claim9_full_column_lost (nb : Board) (li : Int → JVal) (fx : Int)
    (cell : Int × Int)
    (hli : li cell.1 = JVal.undef ∨ li cell.1 = JVal.nan)
    (hci : 0 ≤ cell.1 + fx ∧ (cell.1 + fx).toNat < nb.length)
    (hfull : 0 ∉ nb.getD (cell.1 + fx).toNat []) :
    lastIndexOfZero (nb.getD (cell.1 + fx).toNat []) = -1 ∧
    (dropStep fx (some (nb, li)) cell).map Prod.fst = some nb := by
  have hneg : lastIndexOfZero (nb.getD (cell.1 + fx).toNat []) < 0 :=
    (lastIndexOfZero_neg_iff _).mpr hfull
  have hge := lastIndexOfZero_ge_neg_one (nb.getD (cell.1 + fx).toNat [])
  have hm1 : lastIndexOfZero (nb.getD (cell.1 + fx).toNat []) = -1 := by omega
  refine ⟨hm1, ?_⟩
  simp only [dropStep]
  rw [if_pos hci]
  have hset : setCell (nb.getD (cell.1 + fx).toNat [])
      (match li cell.1 with
       | .num v => if v ≠ 0 then v else lastIndexOfZero (nb.getD (cell.1 + fx).toNat [])
       | _ => lastIndexOfZero (nb.getD (cell.1 + fx).toNat []))
      = nb.getD (cell.1 + fx).toNat [] := by
    rcases hli with h | h <;>
      rw [h] <;> simp only [hm1] <;> simp [setCell]
  rw [hset, set_getD_self nb _ [] hci.2]
  rfl

/-- Witness for C9: a one-cell float aimed at the full single column of
`[[1]]` is dropped silently, leaving the board unchanged. -/
theorem claim9_witness :
    lastIndexOfZero ([[1]].getD ((0 : Int) + 0).toNat []) = -1 ∧
    (dropStep 0 (some ([[1]], fun _ => JVal.undef)) ((0 : Int), (0 : Int))).map Prod.fst
      = some [[1]] :=
  claim9_full_column_lost [[1]] (fun _ => JVal.undef) 0 (0, 0)
    (Or.inl rfl) (by constructor <;> decide) (by decide)

theorem iterColumn_length (c : List Nat) : (iterColumn c).length = c.length := by
  by_cases h : 0 ∈ c
  · obtain ⟨a, b, rfl, hb⟩ := exists_last_zero_decomp _ h
    rw [iterColumn_decomp a b hb]
    simp only [List.length_cons, List.length_append]
    omega
  · rw [iterColumn_no_zero _ h]

theorem rect_map_iterColumn (b : Board) (w h : Nat) (hb : Rect b w h) :
    Rect (b.map iterColumn) w h := by
  obtain ⟨hlen, hcols⟩ := hb
  constructor
  · simpa using hlen
  · intro col hcol
    obtain ⟨orig, horig, rfl⟩ := List.mem_map.mp hcol
    rw [iterColumn_length]
    exact hcols orig horig

theorem setCell_length (cells : List Nat) (i : Int) :
    (setCell cells i).length = cells.length := by
  unfold setCell
  split
  · exact List.length_set _ _ _
  · rfl

theorem foldl_dropStep_none (fx : Int) (value : List (Int × Int)) :
    value.foldl (dropStep fx) none = none := by
  induction value with
  | nil => rfl
  | cons cell rest ih => simpa [dropStep] using ih

theorem dropFold_rect (w h : Nat) (value : List (Int × Int)) :
    ∀ (fx : Int) (nb : Board) (li : Int → JVal), Rect nb w h →
    ∀ res, value.foldl (dropStep fx) (some (nb, li)) = some res → Rect res.1 w h := by
  induction value with
  | nil =>
    intro fx nb li hR res hres
    simp only [List.foldl_nil, Option.some.injEq] at hres
    rw [← hres]
    exact hR
  | cons cell rest ih =>
    intro fx nb li hR res hres
    simp only [List.foldl_cons] at hres
    by_cases hc : 0 ≤ cell.1 + fx ∧ (cell.1 + fx).toNat < nb.length
    · rw [show dropStep fx (some (nb, li)) cell
          = some (nb.set (cell.1 + fx).toNat
              (setCell (nb.getD (cell.1 + fx).toNat [])
                (match li cell.1 with
                 | .num v => if v ≠ 0 then v
                             else lastIndexOfZero (nb.getD (cell.1 + fx).toNat [])
                 | _ => lastIndexOfZero (nb.getD (cell.1 + fx).toNat []))),
              Function.update li cell.1 (jsDec (li cell.1)))
          by simp only [dropStep]; rw [if_pos hc]] at hres
      refine ih fx _ _ ?_ res hres
      obtain ⟨hlen, hcols⟩ := hR
      constructor
      · rw [List.length_set]; exact hlen
      · intro col hcol
        rcases List.mem_or_eq_of_mem_set hcol with hmem | heq
        · exact hcols col hmem
        · rw [heq, setCell_length]
          exact hcols _ (getD_mem_of_lt nb _ [] hc.2)
    · rw [show dropStep fx (some (nb, li)) cell = none
          by simp only [dropStep]; rw [if_neg hc]] at hres
      rw [foldl_dropStep_none] at hres
      cases hres

theorem removeLastCell_length (count : Nat) (cells : List Nat)
    (h1 : 1 ≤ count) (h2 : count ≤ cells.length) :
    (removeLastCell count cells).length = cells.length := by
  unfold removeLastCell
  rw [if_neg (by omega)]
  simp only [List.length_append, List.length_replicate, List.length_take]
  omega

theorem diffColumn_length (colB : List Nat) (col : List Nat) :
    ∀ y, (diffColumn colB y col).length = col.length := by
  induction col with
  | nil => intro y; rfl
  | cons v vs ih =>
    intro y
    simp only [diffColumn, List.length_cons, ih]

theorem boardDiffCols_spec (b2 : Board) (h0 : Nat) (cols : List (List Nat)) :
    ∀ x res, boardDiffCols b2 h0 x cols = some res →
      res.length = cols.length ∧
      ∀ col ∈ res, ∃ colA ∈ cols, col.length = colA.length + (h0 - colA.length) := by
  induction cols with
  | nil =>
    intro x res h
    simp only [boardDiffCols, Option.some.injEq] at h
    rw [← h]
    exact ⟨rfl, fun col hcol => absurd hcol (List.not_mem_nil _)⟩
  | cons colA rest ih =>
    intro x res h
    match hA : colA, h with
    | [], h =>
      simp only [boardDiffCols, Option.map_eq_some'] at h
      obtain ⟨cols2, hrec, hres⟩ := h
      obtain ⟨hlen2, hmem2⟩ := ih (x + 1) cols2 hrec
      rw [← hres]
      refine ⟨by simp [hlen2], ?_⟩
      intro col hcol
      rcases List.mem_cons.mp hcol with heq | hmem
      · exact ⟨[], List.mem_cons_self _ _, by simp [heq]⟩
      · obtain ⟨cA, hcA, hl⟩ := hmem2 col hmem
        exact ⟨cA, List.mem_cons_of_mem _ hcA, hl⟩
    | v :: vs, h =>
      rcases hB : b2.get? x with _ | colB
      · rw [show boardDiffCols b2 h0 x ((v :: vs) :: rest) = none by
            simp only [boardDiffCols, hB]] at h
        cases h
      · rw [show boardDiffCols b2 h0 x ((v :: vs) :: rest)
            = (boardDiffCols b2 h0 (x + 1) rest).map
              (fun cols =>
                (diffColumn colB 0 (v :: vs)
                  ++ (List.replicate h0 0).drop (v :: vs).length) :: cols) by
            simp only [boardDiffCols, hB]] at h
        simp only [Option.map_eq_some'] at h
        obtain ⟨cols2, hrec, hres⟩ := h
        obtain ⟨hlen2, hmem2⟩ := ih (x + 1) cols2 hrec
        rw [← hres]
        refine ⟨by simp [hlen2], ?_⟩
        intro col hcol
        rcases List.mem_cons.mp hcol with heq | hmem
        · refine ⟨v :: vs, List.mem_cons_self _ _, ?_⟩
          rw [heq]
          simp [diffColumn_length, List.length_drop]
        · obtain ⟨cA, hcA, hl⟩ := hmem2 col hmem
          exact ⟨cA, List.mem_cons_of_mem _ hcA, hl⟩

theorem dropFloatingTiles_rect (w h : Nat) (b : Board) (f? : Option FloatT) (b2 : Board)
    (hb : Rect b w h) (hres : dropFloatingTiles b f? = some b2) : Rect b2 w h := by
  match f? with
  | none =>
    simp only [dropFloatingTiles, Option.some.injEq] at hres
    rw [← hres]
    exact hb
  | some f =>
    simp only [dropFloatingTiles] at hres
    rcases hfold : f.value.foldl (dropStep f.x) (some (b, fun _ => JVal.undef)) with _ | st
    · rw [hfold] at hres; cases hres
    · rw [hfold] at hres
      simp only [Option.map_some', Option.some.injEq] at hres
      rw [← hres]
      exact dropFold_rect w h f.value f.x b _ hb st hfold

/-- C10.  Every board-transforming operation preserves the board's
dimensions: on a `w × h` board (with `w > 0`, as in the game), whenever
`iterBoard`, `dropFloatingTiles` or `boardDiff` returns a board (rather
than throwing — `boardDiff` throws when the second board lacks a column the
first board compares), and for `removeBottomRow` with `1 ≤ count ≤ h`, the
returned board has exactly `w` columns of `h` cells each. -/
theorem claim10_dims (w h : Nat) (b : Board) (hw : 0 < w) (hb : Rect b w h) :
    (∀ f? b2 f2, iterBoard b f? = some (b2, f2) → Rect b2 w h) ∧
    (∀ f? b2, dropFloatingTiles b f? = some b2 → Rect b2 w h) ∧
    (∀ count, 1 ≤ count → count ≤ h → Rect (removeBottomRow b count) w h) ∧
    (∀ bB b2, boardDiff b bB = some b2 → Rect b2 w h) := by
  have hnext : Rect (b.map iterColumn) w h := rect_map_iterColumn b w h hb
  refine ⟨?_, ?_, ?_, ?_⟩
  · intro f? b2 f2 hres
    match f? with
    | none =>
      simp only [iterBoard, Option.some.injEq, Prod.mk.injEq] at hres
      rw [← hres.1]
      exact hnext
    | some f =>
      simp only [iterBoard] at hres
      rcases hsd : shouldDropAux b f.x (f.y + 1) f.value with _ | sd
      · rw [hsd] at hres; cases hres
      · rw [hsd] at hres
        match sd with
        | true =>
          simp only [Option.map_eq_some'] at hres
          obtain ⟨nb, hnb, heq⟩ := hres
          injection heq with h1 h2
          rw [← h1]
          exact dropFloatingTiles_rect w h (b.map iterColumn) (some f) nb hnext hnb
        | false =>
          simp only [Option.some.injEq, Prod.mk.injEq] at hres
          rw [← hres.1]
          exact hnext
  · intro f? b2 hres
    exact dropFloatingTiles_rect w h b f? b2 hb hres
  · intro count hc1 hc2
    obtain ⟨hlen, hcols⟩ := hb
    constructor
    · simpa [removeBottomRow] using hlen
    · intro col hcol
      obtain ⟨orig, horig, rfl⟩ := List.mem_map.mp hcol
      rw [removeLastCell_length count orig hc1 (by rw [hcols orig horig]; exact hc2)]
      exact hcols orig horig
  · intro bB b2 hres
    obtain ⟨hlen, hcols⟩ := hb
    cases b with
    | nil =>
      exact absurd hlen (by simpa using hw.ne)
    | cons c rest =>
      have hh0 : (((c :: rest) : Board).headD []).length = h :=
        hcols c (List.mem_cons_self _ _)
      simp only [boardDiff] at hres
      obtain ⟨hrlen, hrcols⟩ := boardDiffCols_spec bB _ (c :: rest) 0 b2 hres
      constructor
      · rw [hrlen]
        exact hlen
      · intro col hcol
        obtain ⟨colA, hcA, hlenA⟩ := hrcols col hcol
        rw [hlenA, hcols colA hcA, hh0]
        omega

/-- Witness for C10 on a concrete 1 × 2 board, exercising the
`removeBottomRow` and `boardDiff` conjuncts. -/
theorem claim10_witness :
    Rect (removeBottomRow [[0, 1]] 1) 1 2 ∧ Rect [[1, 0]] 1 2 :=
  ⟨(claim10_dims 1 2 [[0, 1]] (by decide) (by decide)).2.2.1 1 (by decide) (by decide),
   (claim10_dims 1 2 [[0, 1]] (by decide) (by decide)).2.2.2 [[1, 1]] [[1, 0]] rfl⟩

/-! ### Claim C6: four rotations return the original group -/

theorem map_ne_nil {α β : Type} (f : α → β) (l : List α) (hl : l ≠ []) :
    l.map f ≠ [] := by
  cases l with
  | nil => exact absurd rfl hl
  | cons x xs => simp

theorem foldl_min_map_add (l : List Int) : ∀ (m a : Int),
    (l.map (fun z => z + a)).foldl min (m + a) = l.foldl min m + a := by
  induction l with
  | nil => intro m a; rfl
  | cons x xs ih =>
    intro m a
    simp only [List.map_cons, List.foldl_cons]
    rw [min_add_add_right m x a, ih]

theorem minList_map_add (l : List Int) (a : Int) (hl : l ≠ []) :
    minList (l.map (fun z => z + a)) = minList l + a := by
  cases l with
  | nil => exact absurd rfl hl
  | cons x xs =>
    simp only [List.map_cons, minList]
    exact foldl_min_map_add xs x a

theorem normalise_map_shift (g : List (Int × Int)) (a b : Int) (hg : g ≠ []) :
    normaliseTileGroup (g.map (fun t => (t.1 + a, t.2 + b))) = normaliseTileGroup g := by
  unfold normaliseTileGroup
  have h1 : minList ((g.map (fun t : Int × Int => (t.1 + a, t.2 + b))).map Prod.fst)
      = minList (g.map Prod.fst) + a := by
    have he : (g.map (fun t : Int × Int => (t.1 + a, t.2 + b))).map Prod.fst
        = (g.map Prod.fst).map (fun z => z + a) := by
      rw [List.map_map, List.map_map]
      rfl
    rw [he]
    exact minList_map_add _ a (map_ne_nil _ _ hg)
  have h2 : minList ((g.map (fun t : Int × Int => (t.1 + a, t.2 + b))).map Prod.snd)
      = minList (g.map Prod.snd) + b := by
    have he : (g.map (fun t : Int × Int => (t.1 + a, t.2 + b))).map Prod.snd
        = (g.map Prod.snd).map (fun z => z + b) := by
      rw [List.map_map, List.map_map]
      rfl
    rw [he]
    exact minList_map_add _ b (map_ne_nil _ _ hg)
  rw [h1, h2, List.map_map]
  have hf : ((fun t : Int × Int =>
        (t.1 - (minList (g.map Prod.fst) + a), t.2 - (minList (g.map Prod.snd) + b)))
      ∘ (fun t : Int × Int => (t.1 + a, t.2 + b)))
      = (fun t : Int × Int =>
        (t.1 - minList (g.map Prod.fst), t.2 - minList (g.map Prod.snd))) := by
    funext t
    simp only [Function.comp_apply, Prod.mk.injEq]
    constructor <;> ring_nf
  rw [hf]

theorem rotate_map_shift (g : List (Int × Int)) (a b : Int) (hg : g ≠ []) :
    rotateTileGroup (g.map (fun t => (t.1 + a, t.2 + b))) = rotateTileGroup g := by
  unfold rotateTileGroup
  have he : (g.map (fun t : Int × Int => (t.1 + a, t.2 + b))).map (fun t => (-t.2, t.1))
      = (g.map (fun t : Int × Int => (-t.2, t.1))).map (fun t => (t.1 + (-b), t.2 + a)) := by
    rw [List.map_map, List.map_map]
    have hf : ((fun t : Int × Int => (-t.2, t.1)) ∘ (fun t : Int × Int => (t.1 + a, t.2 + b)))
        = ((fun t : Int × Int => (t.1 + (-b), t.2 + a)) ∘ (fun t : Int × Int => (-t.2, t.1))) := by
      funext t
      simp only [Function.comp_apply, Prod.mk.injEq]
      constructor <;> ring_nf
    rw [hf]
  rw [he]
  exact normalise_map_shift _ (-b) a (map_ne_nil _ _ hg)

theorem normalise_as_shift (g : List (Int × Int)) :
    normaliseTileGroup g = g.map (fun t =>
      (t.1 + (-(minList (g.map Prod.fst))), t.2 + (-(minList (g.map Prod.snd))))) := by
  unfold normaliseTileGroup
  apply List.map_congr_left
  intro t _
  simp only [Prod.mk.injEq]
  constructor <;> ring_nf

theorem rotate_normalise (g : List (Int × Int)) (hg : g ≠ []) :
    rotateTileGroup (normaliseTileGroup g) = rotateTileGroup g := by
  rw [normalise_as_shift g]
  exact rotate_map_shift g _ _ hg

/-- C6.  Applying `rotateTileGroup` four times to a tile group (which is,
by construction of the game's groups, normalised: `normaliseTileGroup`
fixes it) returns a set of coordinates identical, as a set, to the original
group (in fact the very same list). -/
theorem claim6_rotate_four (g : List (Int × Int)) (hg : normaliseTileGroup g = g) :
    (rotateTileGroup (rotateTileGroup (rotateTileGroup (rotateTileGroup g)))).toFinset
      = g.toFinset := by
  rcases heq : g with _ | ⟨p, rest⟩
  · rfl
  · rw [← heq]
    have hne : g ≠ [] := by rw [heq]; simp
    have e1 : rotateTileGroup g = normaliseTileGroup (g.map (fun t => (-t.2, t.1))) := rfl
    have e2 : rotateTileGroup (rotateTileGroup g)
        = normaliseTileGroup (g.map (fun t : Int × Int => (-t.1, -t.2))) := by
      rw [e1, rotate_normalise _ (map_ne_nil _ _ hne)]
      unfold rotateTileGroup
      rw [List.map_map]
      rfl
    have e3 : rotateTileGroup (rotateTileGroup (rotateTileGroup g))
        = normaliseTileGroup (g.map (fun t : Int × Int => (t.2, -t.1))) := by
      rw [e2, rotate_normalise _ (map_ne_nil _ _ hne)]
      unfold rotateTileGroup
      rw [List.map_map]
      have hf : ((fun t : Int × Int => (-t.2, t.1)) ∘ fun t : Int × Int => (-t.1, -t.2))
          = (fun t : Int × Int => (t.2, -t.1)) := by
        funext t
        simp
      rw [hf]
    have e4 : rotateTileGroup (rotateTileGroup (rotateTileGroup (rotateTileGroup g))) = g := by
      rw [e3, rotate_normalise _ (map_ne_nil _ _ hne)]
      unfold rotateTileGroup
      rw [List.map_map]
      have hid : (g.map (((fun t : Int × Int => (-t.2, t.1))) ∘ (fun t : Int × Int => (t.2, -t.1))))
          = g := by
        have hf : (((fun t : Int × Int => (-t.2, t.1))) ∘ (fun t : Int × Int => (t.2, -t.1)))
            = (fun t : Int × Int => t) := by
          funext t
          simp
        rw [hf, List.map_id']
      rw [hid, hg]
    rw [e4]

/-- Witness for C6 at a concrete two-cell group. -/
theorem claim6_witness :
    normaliseTileGroup [((0 : Int), (0 : Int)), (1, 0)] = [((0 : Int), (0 : Int)), (1, 0)] ∧
    (rotateTileGroup (rotateTileGroup (rotateTileGroup
        (rotateTileGroup [((0 : Int), (0 : Int)), (1, 0)])))).toFinset
      = [((0 : Int), (0 : Int)), (1, 0)].toFinset :=
  ⟨by decide, claim6_rotate_four [((0 : Int), (0 : Int)), (1, 0)] (by decide)⟩

/-! ### Claim C4: iterated compaction reaches the fully settled column -/

theorem countZeros_replicate (z : Nat) : countZeros (List.replicate z 0) = z := by
  induction z with
  | zero => rfl
  | succ k ih =>
    unfold countZeros at ih ⊢
    rw [List.replicate_succ, List.countP_cons]
    simp [ih]

theorem countZeros_eq_zero_of_not_mem (b : List Nat) (hb : 0 ∉ b) : countZeros b = 0 := by
  unfold countZeros
  rw [List.countP_eq_zero]
  intro a ha hpa
  exact hb (beq_iff_eq.mp hpa ▸ ha)

theorem filterNZ_replicate (z : Nat) :
    (List.replicate z 0).filter (fun x => !(x == 0)) = [] := by
  induction z with
  | zero => rfl
  | succ k ih => rw [List.replicate_succ, List.filter_cons]; simp [ih]

theorem filter_eq_self_of_not_mem (b : List Nat) (hb : 0 ∉ b) :
    b.filter (fun x => !(x == 0)) = b := by
  rw [List.filter_eq_self]
  intro a ha
  have : a ≠ 0 := fun h => hb (h ▸ ha)
  simpa using this

theorem no_zero_invMeasure (b : List Nat) (hb : 0 ∉ b) : invMeasure b = 0 := by
  induction b with
  | nil => rfl
  | cons x xs ih =>
    have hx : x ≠ 0 := fun h => hb (by rw [h]; exact List.mem_cons_self _ _)
    have hxs : 0 ∉ xs := fun h => hb (List.mem_cons_of_mem _ h)
    simp only [invMeasure, if_neg hx, ih hxs,
      countZeros_eq_zero_of_not_mem xs hxs]

theorem occCells_cons (x : Nat) (u : List Nat) :
    occCells (x :: u) = occCells u + if x = 0 then 0 else 1 := by
  unfold occCells
  rw [List.countP_cons]
  by_cases hx : x = 0 <;> simp [hx]

theorem countZeros_append (u v : List Nat) :
    countZeros (u ++ v) = countZeros u + countZeros v := by
  unfold countZeros
  exact List.countP_append _ _ _

theorem invMeasure_append (u v : List Nat) :
    invMeasure (u ++ v) = invMeasure u + occCells u * countZeros v + invMeasure v := by
  induction u with
  | nil => simp [invMeasure, occCells]
  | cons x u ih =>
    simp only [List.cons_append, invMeasure, List.append_eq, ih, countZeros_append,
      occCells_cons]
    by_cases hx : x = 0
    · simp only [if_pos hx]
      ring
    · simp only [if_neg hx]
      ring

theorem occCells_eq_zero_replicate (a : List Nat) (ha : occCells a = 0) :
    a = List.replicate a.length 0 := by
  apply List.eq_replicate_of_mem
  intro x hx
  unfold occCells at ha
  have := List.countP_eq_zero.mp ha x hx
  simpa using this

theorem replicate_append_cons (k : Nat) (s : List Nat) :
    List.replicate k 0 ++ 0 :: s = List.replicate (k + 1) 0 ++ s := by
  rw [List.replicate_succ', List.append_assoc]
  rfl

theorem settledOf_shape (z : Nat) (s : List Nat) (hs : 0 ∉ s) :
    settledOf (List.replicate z 0 ++ s) = List.replicate z 0 ++ s := by
  unfold settledOf
  rw [countZeros_append, countZeros_replicate, countZeros_eq_zero_of_not_mem s hs,
    List.filter_append, filterNZ_replicate, filter_eq_self_of_not_mem s hs,
    Nat.add_zero, List.nil_append]

theorem settledOf_no_zero (c : List Nat) (h : 0 ∉ c) : settledOf c = c := by
  unfold settledOf
  rw [countZeros_eq_zero_of_not_mem c h, filter_eq_self_of_not_mem c h]
  rfl

theorem occCells_zero_case (a b : List Nat) (hb : 0 ∉ b) (ha : occCells a = 0) :
    settledOf (a ++ 0 :: b) = a ++ 0 :: b ∧ iterColumn (a ++ 0 :: b) = a ++ 0 :: b := by
  have hrep : a = List.replicate a.length 0 := occCells_eq_zero_replicate a ha
  constructor
  · conv_lhs => rw [hrep, replicate_append_cons]
    rw [settledOf_shape _ b hb, ← replicate_append_cons, ← hrep]
  · rw [iterColumn_decomp a b hb]
    conv_lhs => rw [hrep]
    conv_rhs => rw [hrep, replicate_append_cons]
    rfl

theorem iterColumn_measure (a b : List Nat) (hb : 0 ∉ b) :
    invMeasure (0 :: (a ++ b)) + occCells a = invMeasure (a ++ 0 :: b) := by
  have hczb : countZeros b = 0 := countZeros_eq_zero_of_not_mem b hb
  have hinvb : invMeasure b = 0 := no_zero_invMeasure b hb
  have h1 : invMeasure (0 :: (a ++ b)) = invMeasure (a ++ b) := by
    simp [invMeasure]
  have h2 : countZeros (0 :: b) = 1 := by
    unfold countZeros
    rw [List.countP_cons]
    unfold countZeros at hczb
    simp [hczb]
  have h3 : invMeasure (0 :: b) = 0 := by
    simp [invMeasure, hinvb]
  rw [h1, invMeasure_append, invMeasure_append, hczb, hinvb, h2, h3]
  ring

theorem settledOf_cons_move (a b : List Nat) :
    settledOf (0 :: (a ++ b)) = settledOf (a ++ 0 :: b) := by
  have hcount : countZeros (0 :: (a ++ b)) = countZeros (a ++ 0 :: b) := by
    unfold countZeros
    simp only [List.countP_cons, List.countP_append]
    simp only [beq_self_eq_true, if_pos]
    omega
  have hfil : (0 :: (a ++ b)).filter (fun x => !(x == 0))
      = (a ++ 0 :: b).filter (fun x => !(x == 0)) := by
    simp [List.filter_cons, List.filter_append]
  unfold settledOf
  rw [hcount, hfil]

theorem not_zero_mem_filterNZ (c : List Nat) :
    0 ∉ c.filter (fun x => !(x == 0)) := by
  intro hmem
  have := (List.mem_filter.mp hmem).2
  simp at this

theorem iterColumn_settledOf (c : List Nat) : iterColumn (settledOf c) = settledOf c := by
  have hs := not_zero_mem_filterNZ c
  cases hz : countZeros c with
  | zero =>
    unfold settledOf
    rw [hz]
    simpa using iterColumn_no_zero _ hs
  | succ k =>
    unfold settledOf
    rw [hz, ← replicate_append_cons k _, iterColumn_decomp _ _ hs, replicate_append_cons]
    rfl

theorem occCells_append (u v : List Nat) :
    occCells (u ++ v) = occCells u + occCells v := by
  unfold occCells
  exact List.countP_append _ _ _

theorem occCells_replicate_zero (z : Nat) : occCells (List.replicate z 0) = 0 := by
  unfold occCells
  rw [List.countP_eq_zero]
  intro a ha
  simp [List.eq_of_mem_replicate ha]

theorem occCells_filterNZ (c : List Nat) :
    occCells (c.filter (fun x => !(x == 0))) = occCells c := by
  unfold occCells
  rw [List.countP_eq_length.mpr (fun a ha => (List.mem_filter.mp ha).2),
    List.countP_eq_length_filter]

theorem occCells_settledOf (c : List Nat) : occCells (settledOf c) = occCells c := by
  unfold settledOf
  rw [occCells_append, occCells_replicate_zero, occCells_filterNZ]
  omega

theorem countZeros_add_occCells (c : List Nat) : countZeros c + occCells c = c.length := by
  induction c with
  | nil => rfl
  | cons x xs ih =>
    unfold countZeros occCells at ih ⊢
    rw [List.countP_cons, List.countP_cons]
    by_cases hx : x = 0
    · subst hx
      simp
      omega
    · have h1 : (x == 0) = false := by simpa using hx
      simp [h1]
      omega

theorem settledOf_length (c : List Nat) : (settledOf c).length = c.length := by
  unfold settledOf
  rw [List.length_append, List.length_replicate, ← List.countP_eq_length_filter]
  exact countZeros_add_occCells c

theorem getD_replicate_zero (z i : Nat) : (List.replicate z (0 : Nat)).getD i 0 = 0 := by
  induction z generalizing i with
  | zero => rfl
  | succ k ih =>
    rw [List.replicate_succ]
    cases i with
    | zero => rfl
    | succ j => rw [List.getD_cons_succ]; exact ih j

theorem reach_settled_fuel : ∀ (fuel : Nat) (c : List Nat), invMeasure c ≤ fuel →
    ∃ n, Nat.iterate iterColumn n c = settledOf c := by
  intro fuel
  induction fuel with
  | zero =>
    intro c hc
    by_cases h0 : 0 ∈ c
    · obtain ⟨a, b, rfl, hb⟩ := exists_last_zero_decomp c h0
      have hm := iterColumn_measure a b hb
      have ha : occCells a = 0 := by omega
      exact ⟨0, (occCells_zero_case a b hb ha).1.symm⟩
    · exact ⟨0, (settledOf_no_zero c h0).symm⟩
  | succ fuel ih =>
    intro c hc
    by_cases h0 : 0 ∈ c
    · obtain ⟨a, b, rfl, hb⟩ := exists_last_zero_decomp c h0
      by_cases ha : occCells a = 0
      · exact ⟨0, (occCells_zero_case a b hb ha).1.symm⟩
      · have hiter : iterColumn (a ++ 0 :: b) = 0 :: (a ++ b) := iterColumn_decomp a b hb
        have hm := iterColumn_measure a b hb
        have hle : invMeasure (0 :: (a ++ b)) ≤ fuel := by omega
        obtain ⟨m, hmEq⟩ := ih (0 :: (a ++ b)) hle
        refine ⟨m + 1, ?_⟩
        rw [Function.iterate_succ_apply, hiter, hmEq]
        exact settledOf_cons_move a b
    · exact ⟨0, (settledOf_no_zero c h0).symm⟩

/-- C4.  Iterating the single-column compaction step reaches a fixpoint, and
that fixpoint is the column with all its empty cells at the top (low
indices) and all its occupied cells at the bottom (high indices, in their
original order), with the same occupied-cell count and the same column
length as the original. -/
theorem claim4_compaction_fixpoint (cells : List Nat) :
    ∃ n,
      Nat.iterate iterColumn n cells
        = List.replicate (countZeros cells) 0 ++ cells.filter (fun x => !(x == 0)) ∧
      iterColumn (Nat.iterate iterColumn n cells) = Nat.iterate iterColumn n cells ∧
      (Nat.iterate iterColumn n cells).length = cells.length ∧
      occCells (Nat.iterate iterColumn n cells) = occCells cells ∧
      (∀ i j, i ≤ j → j < (Nat.iterate iterColumn n cells).length →
        (Nat.iterate iterColumn n cells).getD i 0 ≠ 0 →
        (Nat.iterate iterColumn n cells).getD j 0 ≠ 0) := by
  obtain ⟨n, hn⟩ := reach_settled_fuel (invMeasure cells) cells (le_refl _)
  refine ⟨n, ?_, ?_, ?_, ?_, ?_⟩
  · rw [hn]; rfl
  · rw [hn]; exact iterColumn_settledOf cells
  · rw [hn]; exact settledOf_length cells
  · rw [hn]; exact occCells_settledOf cells
  · rw [hn]
    intro i j hij hjlen hi
    unfold settledOf at hjlen hi ⊢
    by_cases hiz : i < countZeros cells
    · exfalso
      apply hi
      rw [List.getD_append _ _ _ _ (by simpa using hiz)]
      exact getD_replicate_zero _ _
    · have hjz : countZeros cells ≤ j := by omega
      rw [List.getD_append_right _ _ _ _ (by simpa using hjz)]
      simp only [List.length_replicate]
      have hjfil : j - countZeros cells < (cells.filter (fun x => !(x == 0))).length := by
        simp only [List.length_append, List.length_replicate] at hjlen
        omega
      intro hzero
      have hmem := getD_mem_of_lt (cells.filter (fun x => !(x == 0)))
        (j - countZeros cells) 0 hjfil
      rw [hzero] at hmem
      exact not_zero_mem_filterNZ cells hmem

/-! ### Claims C1 and C2: dropFloatingTiles refines the intended placement -/

theorem lastIndexOfZero_spec (c : List Nat) (h : 0 ∈ c) :
    0 ≤ lastIndexOfZero c ∧ (lastIndexOfZero c).toNat < c.length ∧
    c.getD (lastIndexOfZero c).toNat 0 = 0 := by
  obtain ⟨a, b, rfl, hb⟩ := exists_last_zero_decomp c h
  rw [lastIndexOfZero_append a b hb]
  have ht : ((a.length : Int)).toNat = a.length := by omega
  refine ⟨by omega, ?_, ?_⟩
  · rw [ht]
    simp only [List.length_append, List.length_cons]
    omega
  · rw [ht, List.getD_append_right _ _ _ _ (le_refl _), Nat.sub_self]
    rfl

theorem getD_set_self {α : Type} (l : List α) (i : Nat) (a d : α) (h : i < l.length) :
    (l.set i a).getD i d = a := by
  rw [List.getD_eq_getElem _ _ (by simpa using h)]
  exact List.getElem_set_self (by simpa using h)

theorem getD_set_ne {α : Type} (l : List α) (i j : Nat) (a d : α) (h : i ≠ j) :
    (l.set i a).getD j d = l.getD j d := by
  by_cases hj : j < l.length
  · rw [List.getD_eq_getElem _ _ (by simpa using hj), List.getD_eq_getElem _ _ hj]
    exact List.getElem_set_ne h _
  · have hj2 : l.length ≤ j := by omega
    rw [List.getD_eq_default _ _ (by simpa using hj2), List.getD_eq_default _ _ hj2]

theorem mem_of_countZeros_pos (c : List Nat) (h : 0 < countZeros c) : 0 ∈ c := by
  unfold countZeros at h
  obtain ⟨a, ha, hpa⟩ := List.countP_pos_iff.mp h
  exact (beq_iff_eq.mp hpa) ▸ ha

theorem countZeros_set_last (col : List Nat) (l : Nat) (hl : l < col.length)
    (hz : col.getD l 0 = 0) :
    countZeros (col.set l 1) + 1 = countZeros col := by
  have hcl : col[l] = 0 := by rw [← List.getD_eq_getElem _ _ hl]; exact hz
  have hmem : (0 : Nat) ∈ col := hcl ▸ List.getElem_mem hl
  have hpos : 0 < countZeros col := by
    unfold countZeros
    exact List.countP_pos_iff.mpr ⟨0, hmem, by simp⟩
  unfold countZeros at hpos ⊢
  rw [List.countP_set _ _ _ _ hl, hcl]
  simp only [beq_self_eq_true, if_true]
  norm_num
  omega

theorem occCells_set_last (col : List Nat) (l : Nat) (hl : l < col.length)
    (hz : col.getD l 0 = 0) :
    occCells (col.set l 1) = occCells col + 1 := by
  have hcl : col[l] = 0 := by rw [← List.getD_eq_getElem _ _ hl]; exact hz
  unfold occCells
  rw [List.countP_set _ _ _ _ hl, hcl]
  simp

theorem occCount_cons (col : List Nat) (rest : Board) :
    occCount (col :: rest) = occCells col + occCount rest := by
  simp [occCount]

theorem occCount_set (nb : Board) (i : Nat) (col2 : List Nat) (h : i < nb.length) :
    occCount (nb.set i col2) + occCells (nb.getD i []) = occCount nb + occCells col2 := by
  induction nb generalizing i with
  | nil => simp at h
  | cons x rest ih =>
    cases i with
    | zero =>
      simp only [List.set, occCount_cons, List.getD_cons_zero]
      omega
    | succ k =>
      simp only [List.set, occCount_cons, List.getD_cons_succ]
      have := ih k (by simpa using h)
      omega

theorem fillBottomZeros_succ_pos (col : List Nat) (k : Nat) (h : 0 ∈ col) :
    fillBottomZeros col (k + 1)
      = fillBottomZeros (col.set (lastIndexOfZero col).toNat 1) k := by
  have h0 : ¬ lastIndexOfZero col < 0 := fun hc => (lastIndexOfZero_neg_iff col).mp hc h
  simp only [fillBottomZeros]
  rw [if_neg h0]

theorem tcount_cons (cell : Int × Int) (rest : List (Int × Int)) (fx : Int) (c : Nat) :
    tcount (cell :: rest) fx c
      = tcount rest fx c + (if cell.1 + fx = (c : Int) then 1 else 0) := by
  unfold tcount
  rw [List.filter_cons]
  by_cases h : cell.1 + fx = (c : Int)
  · simp [h]
  · simp [h]

theorem map_getD_range (b : Board) :
    (List.range b.length).map (fun c => b.getD c []) = b := by
  apply List.ext_getElem
  · simp
  · intro n h1 h2
    simp only [List.getElem_map, List.getElem_range]
    exact List.getD_eq_getElem _ _ h2

theorem intendedDropB_nil (nb : Board) (fx : Int) : intendedDropB nb fx [] = nb := by
  unfold intendedDropB
  have : ∀ c, tcount [] fx c = 0 := fun c => rfl
  simp only [this, fillBottomZeros]
  exact map_getD_range nb

theorem intendedDropB_peel (nb : Board) (fx : Int) (cell : Int × Int)
    (rest : List (Int × Int))
    (hci : 0 ≤ cell.1 + fx ∧ (cell.1 + fx).toNat < nb.length)
    (hz : 0 ∈ nb.getD (cell.1 + fx).toNat []) :
    intendedDropB nb fx (cell :: rest)
      = intendedDropB (nb.set (cell.1 + fx).toNat
          ((nb.getD (cell.1 + fx).toNat []).set
            (lastIndexOfZero (nb.getD (cell.1 + fx).toNat [])).toNat 1)) fx rest := by
  unfold intendedDropB
  rw [List.length_set]
  apply List.map_congr_left
  intro c hc
  by_cases hceq : c = (cell.1 + fx).toNat
  · subst hceq
    rw [getD_set_self _ _ _ _ hci.2]
    rw [tcount_cons, if_pos (by omega : cell.1 + fx = (((cell.1 + fx).toNat : Nat) : Int))]
    rw [fillBottomZeros_succ_pos _ _ hz]
  · rw [getD_set_ne _ _ _ _ _ (fun heq => hceq heq.symm)]
    have htc : tcount (cell :: rest) fx c = tcount rest fx c := by
      rw [tcount_cons, if_neg (by omega), Nat.add_zero]
    rw [htc]

theorem dropFold_intended : ∀ (value : List (Int × Int)) (fx : Int) (nb : Board)
    (li : Int → JVal),
    (∀ x v, li x ≠ JVal.num v) →
    (∀ cell ∈ value, 0 ≤ cell.1 + fx ∧ (cell.1 + fx).toNat < nb.length) →
    (∀ c, c < nb.length → tcount value fx c ≤ countZeros (nb.getD c [])) →
    ∃ li2, value.foldl (dropStep fx) (some (nb, li))
        = some (intendedDropB nb fx value, li2) ∧
      (∀ x v, li2 x ≠ JVal.num v) ∧
      occCount (intendedDropB nb fx value) = occCount nb + value.length := by
  intro value
  induction value with
  | nil =>
    intro fx nb li hli _ _
    exact ⟨li, by rw [List.foldl_nil, intendedDropB_nil], hli,
      by rw [intendedDropB_nil]; simp⟩
  | cons cell rest ih =>
    intro fx nb li hli hrange htc
    have hci := hrange cell (List.mem_cons_self _ _)
    have htc0 := htc (cell.1 + fx).toNat hci.2
    have hcnt : tcount (cell :: rest) fx (cell.1 + fx).toNat
        = tcount rest fx (cell.1 + fx).toNat + 1 := by
      rw [tcount_cons, if_pos (by omega : cell.1 + fx = (((cell.1 + fx).toNat : Nat) : Int))]
    have hz : 0 ∈ nb.getD (cell.1 + fx).toNat [] := by
      apply mem_of_countZeros_pos
      omega
    obtain ⟨hl0, hllen, hlz⟩ := lastIndexOfZero_spec _ hz
    have hsetC : setCell (nb.getD (cell.1 + fx).toNat [])
        (lastIndexOfZero (nb.getD (cell.1 + fx).toNat []))
        = (nb.getD (cell.1 + fx).toNat []).set
            (lastIndexOfZero (nb.getD (cell.1 + fx).toNat [])).toNat 1 := by
      unfold setCell
      rw [if_pos ⟨hl0, hllen⟩]
    have hstep : dropStep fx (some (nb, li)) cell
        = some (nb.set (cell.1 + fx).toNat
            ((nb.getD (cell.1 + fx).toNat []).set
              (lastIndexOfZero (nb.getD (cell.1 + fx).toNat [])).toNat 1),
            Function.update li cell.1 (jsDec (li cell.1))) := by
      rcases hv : li cell.1 with _ | _ | v
      · simp only [dropStep, hv]
        rw [if_pos hci, hsetC]
      · simp only [dropStep, hv]
        rw [if_pos hci, hsetC]
      · exact absurd hv (hli _ _)
    have hli2a : ∀ x v, Function.update li cell.1 (jsDec (li cell.1)) x ≠ JVal.num v := by
      intro x v
      by_cases hx : x = cell.1
      · subst hx
        rw [Function.update_same]
        rcases hv : li cell.1 with _ | _ | w
        · simp [hv, jsDec]
        · simp [hv, jsDec]
        · exact absurd hv (hli _ _)
      · rw [Function.update_noteq hx]
        exact hli x v
    have hlen2 : (nb.set (cell.1 + fx).toNat
        ((nb.getD (cell.1 + fx).toNat []).set
          (lastIndexOfZero (nb.getD (cell.1 + fx).toNat [])).toNat 1)).length
        = nb.length := List.length_set _ _ _
    have hrange2 : ∀ c ∈ rest, 0 ≤ c.1 + fx ∧ (c.1 + fx).toNat
        < (nb.set (cell.1 + fx).toNat
            ((nb.getD (cell.1 + fx).toNat []).set
              (lastIndexOfZero (nb.getD (cell.1 + fx).toNat [])).toNat 1)).length := by
      intro c hc
      have := hrange c (List.mem_cons_of_mem _ hc)
      rw [hlen2]
      exact this
    have hgetD2self : (nb.set (cell.1 + fx).toNat
          ((nb.getD (cell.1 + fx).toNat []).set
            (lastIndexOfZero (nb.getD (cell.1 + fx).toNat [])).toNat 1)).getD
          (cell.1 + fx).toNat []
        = (nb.getD (cell.1 + fx).toNat []).set
            (lastIndexOfZero (nb.getD (cell.1 + fx).toNat [])).toNat 1 :=
      getD_set_self _ _ _ _ hci.2
    have hcz2 : countZeros ((nb.set (cell.1 + fx).toNat
          ((nb.getD (cell.1 + fx).toNat []).set
            (lastIndexOfZero (nb.getD (cell.1 + fx).toNat [])).toNat 1)).getD
          (cell.1 + fx).toNat []) + 1
        = countZeros (nb.getD (cell.1 + fx).toNat []) := by
      rw [hgetD2self]
      exact countZeros_set_last _ _ hllen hlz
    have htc2 : ∀ c, c < (nb.set (cell.1 + fx).toNat
          ((nb.getD (cell.1 + fx).toNat []).set
            (lastIndexOfZero (nb.getD (cell.1 + fx).toNat [])).toNat 1)).length →
        tcount rest fx c ≤ countZeros ((nb.set (cell.1 + fx).toNat
          ((nb.getD (cell.1 + fx).toNat []).set
            (lastIndexOfZero (nb.getD (cell.1 + fx).toNat [])).toNat 1)).getD c []) := by
      intro c hclen
      by_cases hceq : c = (cell.1 + fx).toNat
      · subst hceq
        omega
      · rw [show (nb.set (cell.1 + fx).toNat
            ((nb.getD (cell.1 + fx).toNat []).set
              (lastIndexOfZero (nb.getD (cell.1 + fx).toNat [])).toNat 1)).getD c []
            = nb.getD c [] from getD_set_ne _ _ _ _ _ (fun h => hceq h.symm)]
        have h1 := htc c (by omega)
        have h2 : tcount rest fx c ≤ tcount (cell :: rest) fx c := by
          rw [tcount_cons]
          omega
        omega
    obtain ⟨li3, hfold, hli3, hocc⟩ := ih fx _ _ hli2a hrange2 htc2
    have hpeel : intendedDropB nb fx (cell :: rest)
        = intendedDropB (nb.set (cell.1 + fx).toNat
            ((nb.getD (cell.1 + fx).toNat []).set
              (lastIndexOfZero (nb.getD (cell.1 + fx).toNat [])).toNat 1)) fx rest :=
      intendedDropB_peel nb fx cell rest hci hz
    have hocc2 := occCount_set nb (cell.1 + fx).toNat
      ((nb.getD (cell.1 + fx).toNat []).set
        (lastIndexOfZero (nb.getD (cell.1 + fx).toNat [])).toNat 1) hci.2
    have hocc3 : occCells ((nb.getD (cell.1 + fx).toNat []).set
          (lastIndexOfZero (nb.getD (cell.1 + fx).toNat [])).toNat 1)
        = occCells (nb.getD (cell.1 + fx).toNat []) + 1 :=
      occCells_set_last _ _ hllen hlz
    refine ⟨li3, ?_, hli3, ?_⟩
    · rw [List.foldl_cons, hstep, hfold, hpeel]
    · rw [hpeel, hocc, List.length_cons]
      omega

/-- Counterexample to C1 as stated: dropping a one-cell float into the full
single column of the board `[[1]]` returns the board unchanged, so the
occupied-cell count of the result is the board's count, not the board's
count plus the group's cell count. -/
theorem claim1_cex :
    dropFloatingTiles [[1]] (some ⟨[(0, 0)], 0, 0⟩) = some [[1]] ∧
    occCount [[1]] ≠ occCount [[1]] + 1 := by
  constructor
  · rfl
  · decide

/-- C1 as amended: provided every target column is in range and each column
has at least as many empty cells as the float has cells targeting it,
`dropFloatingTiles` returns the intended drop: independently per column, the
float's cells fill the bottom-most empty rows of their target column, one
per cell and from the bottom-most empty one upward (`intendedDropB` /
`fillBottomZeros`), and the occupied-cell count of the result equals the
board's occupied count plus the group's cell count.  (Without these
provisos the count clause fails: cells aimed at a full column are silently
lost, see the counterexample and C9.) -/
theorem claim1_drop_intended (b : Board) (f : FloatT)
    (hrange : ∀ cell ∈ f.value, 0 ≤ cell.1 + f.x ∧ (cell.1 + f.x).toNat < b.length)
    (hcap : ∀ c, c < b.length → tcount f.value f.x c ≤ countZeros (b.getD c [])) :
    dropFloatingTiles b (some f) = some (intendedDropB b f.x f.value) ∧
    occCount (intendedDropB b f.x f.value) = occCount b + f.value.length := by
  obtain ⟨li2, hfold, _, hocc⟩ := dropFold_intended f.value f.x b (fun _ => JVal.undef)
    (fun x v h => by cases h) hrange hcap
  constructor
  · simp only [dropFloatingTiles, hfold, Option.map_some']
  · exact hocc

/-- Witness for the amended C1: two float cells stacking in the single
column of an empty 1 × 2 board fill both rows. -/
theorem claim1_witness :
    dropFloatingTiles [[0, 0]] (some ⟨[(0, 0), (0, 1)], 0, 0⟩)
      = some (intendedDropB [[0, 0]] 0 [(0, 0), (0, 1)]) ∧
    occCount (intendedDropB [[0, 0]] 0 [(0, 0), (0, 1)]) = occCount [[0, 0]] + 2 :=
  claim1_drop_intended [[0, 0]] ⟨[(0, 0), (0, 1)], 0, 0⟩ (by decide) (by decide)

/-- Counterexample to C2 as stated: on the board `[[1,0,0]]` with a one-cell
float at `y = 2`, the advanced float collides with the bottom boundary, and
the code merges the float into the *compacted* board `[[0,1,0]]` (giving
`[[0,1,1]]`), not into the pre-advance, pre-compaction board `[[1,0,0]]`
(which would give `[[1,0,1]]`). -/
theorem claim2_cex :
    iterBoard [[1, 0, 0]] (some ⟨[(0, 0)], 0, 2⟩) = some ([[0, 1, 1]], none) ∧
    dropFloatingTiles [[1, 0, 0]] (some ⟨[(0, 0)], 0, 2⟩) = some [[1, 0, 1]] ∧
    ([[0, 1, 1]] : Board) ≠ [[1, 0, 1]] := by
  refine ⟨rfl, rfl, by decide⟩

/-- C2 as amended: when the full simulation step detects a collision for the
float's advanced position (tested against the pre-compaction board: an
occupied cell or the bottom boundary), the resulting board is the merge via
`dropFloatingTiles` of the (pre-advance) float into the *post-compaction*
board (the board after the per-column gravity step), and the resulting float
is null; under the in-range / enough-empty-cells provisos of C1 this merge
is the intended per-column bottom-most placement into the compacted
board. -/
theorem claim2_collision_merge (b : Board) (f : FloatT)
    (hc : shouldDropAux b f.x (f.y + 1) f.value = some true) :
    iterBoard b (some f)
      = (dropFloatingTiles (b.map iterColumn) (some f)).map (fun nb => (nb, none)) ∧
    ((∀ cell ∈ f.value, 0 ≤ cell.1 + f.x ∧ (cell.1 + f.x).toNat
        < (b.map iterColumn).length) →
     (∀ c, c < (b.map iterColumn).length →
        tcount f.value f.x c ≤ countZeros ((b.map iterColumn).getD c [])) →
     iterBoard b (some f) = some (intendedDropB (b.map iterColumn) f.x f.value, none)) := by
  constructor
  · simp only [iterBoard, hc]
  · intro h1 h2
    obtain ⟨li2, hfold, _, _⟩ := dropFold_intended f.value f.x (b.map iterColumn)
      (fun _ => JVal.undef) (fun x v h => by cases h) h1 h2
    simp only [iterBoard, hc, dropFloatingTiles, hfold, Option.map_some']

/-- Witness for C2: the collision case of the counterexample board, with the
hypotheses discharged concretely; the merge lands in the compacted board's
bottom empty row. -/
theorem claim2_witness :
    iterBoard [[1, 0, 0]] (some ⟨[(0, 0)], 0, 2⟩)
      = some (intendedDropB ([[1, 0, 0]].map iterColumn) 0 [(0, 0)], none) :=
  (claim2_collision_merge [[1, 0, 0]] ⟨[(0, 0)], 0, 2⟩ (by decide)).2
    (by decide) (by decide)

end Tetris
